import Mathlib

/-!
Verification of the smallholder-farmers translation prep pipeline
(scripts `convert_to_jsonl_shards.py`, `wide_to_long_format.py`,
`normalize_and_clean.py`) against its specification.

The Python scripts are shallowly embedded: JSON scalar values become the
inductive `Value`, records become association lists, regex substitutions
become structurally recursive character-list transforms, and the three
stages become the functions `chunkRows` (Sharder), `build_post` /
`reshape_run` (Reshaper) and `normalize_text` / `map_label_to_nllb` /
`process_shard` (Normalizer).
-/

/-- Whitespace test modelling Python's regex class `\s` for `str`
(ASCII whitespace, NEL and NBSP; wider astral whitespace is outside the
model).  Defined on `Char.toNat` so facts reduce to `Nat` arithmetic. -/
def isWs (c : Char) : Bool :=
  c.toNat = 32 || c.toNat = 9 || c.toNat = 10 || c.toNat = 13 ||
  c.toNat = 11 || c.toNat = 12 || c.toNat = 133 || c.toNat = 160

/-- Sentence-terminal punctuation of the fallback splitter regex
`(?<=[.!?])\s+` in `make_splitter`. -/
def isPunct (c : Char) : Bool :=
  c.toNat = 46 || c.toNat = 33 || c.toNat = 63

/-- ASCII lower-casing, modelling Python's `str.lower` on the ASCII range
(the label data of this repository is ASCII). -/
def toLowerA (c : Char) : Char :=
  if 65 ≤ c.toNat ∧ c.toNat ≤ 90 then Char.ofNat (c.toNat + 32) else c

/-- Python `str.strip`: drop whitespace from both ends. -/
def stripWs (cs : List Char) : List Char :=
  ((cs.dropWhile isWs).reverse.dropWhile isWs).reverse

/-- Single character-to-space substitution; Python `str.replace` with a
one-character needle replaces every occurrence, i.e. maps characters. -/
def chReplace (a : Char) (cs : List Char) : List Char :=
  cs.map (fun c => if c = a then ' ' else c)

/-- The two `str.replace` calls of `normalize_text`: zero-width space
(U+200B) and NBSP (U+00A0) each become an ordinary space. -/
def replaceInvis (cs : List Char) : List Char :=
  chReplace '\u00A0' (chReplace '\u200B' cs)

/-- Scanner for `WS_RE.sub(" ", txt)` (`WS_RE = \s+`): replace every
maximal whitespace run by one space.  The flag records whether the scan
is inside a run whose replacement space was already emitted. -/
def collapseGo (inRun : Bool) : List Char → List Char
  | [] => []
  | c :: rest =>
    if isWs c then
      if inRun then collapseGo true rest else ' ' :: collapseGo true rest
    else c :: collapseGo false rest

/-- Whitespace-run collapsing as performed by `normalize_text`. -/
def collapseRuns (cs : List Char) : List Char :=
  collapseGo false cs

/-- Head-of-list non-whitespace test (Bool form, used by `matchStart`). -/
def nonWsHead : List Char → Bool
  | [] => false
  | c :: _ => !(isWs c)

/-- Position test for `URL_RE = https?://\S+`: the regex matches here iff
the literal prefix `http://` or `https://` is present and is followed by
at least one non-whitespace character (the mandatory `\S+`). -/
def matchStart (cs : List Char) : Prop :=
  (cs.take 7 = "http://".data ∧ nonWsHead (cs.drop 7) = true) ∨
  (cs.take 8 = "https://".data ∧ nonWsHead (cs.drop 8) = true)

instance : DecidablePred matchStart := fun cs => by
  unfold matchStart
  infer_instance

/-- Scanner for `URL_RE.sub("<URL>", txt)`.  In normal mode (`skip =
false`) it emits `<URL>` at each match and enters skip mode; skip mode
consumes the rest of the matched region — the remaining prefix letters
and the greedy `\S+` are exactly the non-whitespace characters up to the
next whitespace — then resumes normal scanning. -/
def urlAux : Bool → List Char → List Char
  | _, [] => []
  | true, c :: rest =>
    if isWs c then c :: urlAux false rest else urlAux true rest
  | false, c :: rest =>
    if matchStart (c :: rest) then
      '<' :: 'U' :: 'R' :: 'L' :: '>' :: urlAux true rest
    else c :: urlAux false rest

/-- URL masking as performed by `normalize_text`. -/
def urlSub (cs : List Char) : List Char :=
  urlAux false cs

/-- The cleaning transform `normalize_text` of `normalize_and_clean.py`:
empty guard, invisible-character replacement, strip, whitespace
collapsing, URL masking — in source order. -/
def normalize_text (s : String) : String :=
  if s = "" then ""
  else ⟨urlSub (collapseRuns (stripWs (replaceInvis s.data)))⟩

/-- State machine for `SENT_RE.split` with `SENT_RE = (?<=[.!?])\s+`,
the deterministic fallback sentence splitter of `make_splitter`.  `cur`
is the reversed current fragment; a whitespace character whose
look-behind (the fragment's last character) is sentence-terminal
punctuation ends the fragment, and skip mode consumes the rest of the
greedy whitespace run. -/
def splitGo (skip : Bool) (cur : List Char) : List Char → List (List Char)
  | [] => [cur.reverse]
  | c :: rest =>
    if skip then
      if isWs c then splitGo true cur rest else splitGo false [c] rest
    else if isWs c && (match cur.head? with
                       | some p => isPunct p
                       | none => false) then
      cur.reverse :: splitGo true [] rest
    else splitGo false (c :: cur) rest

/-- Sentence list as built by the fallback splitter's comprehension
`[s.strip() for s in SENT_RE.split(t) if s.strip()]`. -/
def sentencesL (cs : List Char) : List (List Char) :=
  ((splitGo false [] cs).map stripWs).filter (fun f => f ≠ [])

/-- String-level sentence list of the fallback splitter. -/
def sentences (t : String) : List String :=
  (sentencesL t.data).map (fun f => (⟨f⟩ : String))

/-- Newline join of `"\n".join(...)` in the fallback splitter. -/
def joinNL : List (List Char) → List Char
  | [] => []
  | [f] => f
  | f :: fs => f ++ '\n' :: joinNL fs

/-- The `text_to_sentences` strategy in its deterministic fallback form:
split into sentences and join with newlines. -/
def text_to_sentences (t : String) : String :=
  ⟨joinNL (sentencesL t.data)⟩

/-- Single-space join of a fragment list (claim P7's rejoin operation). -/
def joinSp : List (List Char) → List Char
  | [] => []
  | [f] => f
  | f :: fs => f ++ ' ' :: joinSp fs

/-- Single-space join at the string level. -/
def joinSpStr (l : List String) : String :=
  ⟨joinSp (l.map String.data)⟩

/-- Whitespace normalization (the strip + collapse part of the cleaning
transform), used to state the round-trip property P7. -/
def wsNormalize (t : String) : String :=
  ⟨collapseRuns (stripWs t.data)⟩

/-- Python `str.strip` at the string level. -/
def pyStrip (t : String) : String :=
  ⟨stripWs t.data⟩

/-- JSON scalar values of the tabular records: strings, integers, null
(spec §3: "an open-ended mapping of column-name → scalar value"). -/
inductive Value
  | vStr (s : String)
  | vInt (n : Int)
  | vNull
deriving DecidableEq

/-- Python truthiness of a scalar: `None`, `""` and `0` are falsy. -/
def vFalsy : Value → Prop
  | .vStr s => s = ""
  | .vInt n => n = 0
  | .vNull => True

instance : DecidablePred vFalsy := fun v => by
  cases v <;> simp [vFalsy] <;> infer_instance

/-- Python `str(...)` on a scalar value. -/
def pyStrV : Value → String
  | .vStr s => s
  | .vInt n => toString n
  | .vNull => "None"

/-- One parsed JSON record: an ordered key/value mapping (Python dicts
preserve insertion order). -/
abbrev Record : Type := List (String × Value)

/-- Dictionary lookup: value of the first binding of `k`, if any (keys
of a parsed JSON object are unique, so first and only). -/
def Record.find : Record → String → Option Value
  | [], _ => none
  | (a, v) :: rest, k => if a = k then some v else Record.find rest k

/-- Python `rec.get(k)`: `None` both for an absent key and a null value
(every caller in the scripts treats the two alike). -/
def Record.get (r : Record) (k : String) : Value :=
  match r.find k with
  | some v => v
  | none => .vNull

/-- Python dict assignment `r[k] = v`: overwrite in place when the key
exists, else append (insertion order is preserved). -/
def Record.set (r : Record) (k : String) (v : Value) : Record :=
  if (r.find k).isSome then
    r.map (fun kv => if kv.1 = k then (k, v) else kv)
  else r ++ [(k, v)]

/-- Python `r.pop(k, None)`: remove the key. -/
def Record.erase (r : Record) (k : String) : Record :=
  r.filter (fun kv => kv.1 != k)

/-- Per-side column map of `config/columns.json` (`content`, `id`,
`created_at`, `user_id`, `language`). -/
structure SideMap where
  content : String
  id : String
  created_at : String
  user_id : String
  language : String
deriving DecidableEq

/-- The two sides of a wide record. -/
inductive Side
  | question
  | response
deriving DecidableEq

/-- The loaded column map `m` of `wide_to_long_format.py`. -/
structure ColMap where
  question : SideMap
  response : SideMap
  thread_id : String
deriving DecidableEq

/-- Column map lookup `m[side]`. -/
def ColMap.side (m : ColMap) : Side → SideMap
  | .question => m.question
  | .response => m.response

/-- Long-format post record as assembled by `build_post`. -/
structure Post where
  id : String
  thread_id : Value
  created_at : Value
  author : Value
  lang_hint : Value
  text : String
  role : Side
deriving DecidableEq

/-- Side tag prepended to the raw identifier (`"q:"` / `"r:"`). -/
def roleTag : Side → String
  | .question => "q:"
  | .response => "r:"

/-- Raw-identifier part of an emitted post id (everything after the
two-character side tag). -/
def rawId (p : Post) : String :=
  ⟨p.id.data.drop 2⟩

/-- The skip test `not x or str(x).strip() == ""` applied by `build_post`
to the side's content and id values. -/
def blankV (v : Value) : Prop :=
  vFalsy v ∨ pyStrip (pyStrV v) = ""

instance : DecidablePred blankV := fun v => by
  unfold blankV; infer_instance

/-- The `build_post(rec, side)` helper of `wide_to_long_format.py`. -/
def build_post (m : ColMap) (side : Side) (rec : Record) : Option Post :=
  let s := m.side side
  let txt := rec.get s.content
  if blankV txt then none
  else
    let rid := rec.get s.id
    if blankV rid then none
    else some
      { id := (if side = .question then "q:" else "r:") ++ pyStrV rid
        thread_id := rec.get m.thread_id
        created_at := rec.get s.created_at
        author := rec.get s.user_id
        lang_hint := rec.get s.language
        text := pyStrV txt
        role := side }

/-- The Reshaper's main loop over a run's wide records: per record, the
question side is attempted before the response side, and surviving posts
are emitted in encounter order. -/
def reshape_run (m : ColMap) : List Record → List Post
  | [] => []
  | rec :: rest =>
    ([Side.question, Side.response].filterMap (fun side => build_post m side rec))
      ++ reshape_run m rest

/-- Batching loop of `convert_to_jsonl_shards.py`: the reader yields
successive chunks of at most `K` rows; each chunk becomes one shard.
The fuel argument (instantiated with the row count) only bounds the
recursion. -/
def chunkAux (K : Nat) : Nat → List α → List (List α)
  | _, [] => []
  | 0, _ :: _ => []
  | fuel + 1, r :: rest =>
    ((r :: rest).take K) :: chunkAux K fuel ((r :: rest).drop K)

/-- Shard contents produced by the Sharder for a source with the given
rows and chunk size `K`, in shard-index order. -/
def chunkRows (K : Nat) (rows : List α) : List (List α) :=
  chunkAux K rows.length rows

/-- Key normalization of `load_label_map`: `str(k).strip().lower()`. -/
def normLabel (s : String) : String :=
  ⟨(stripWs s.data).map toLowerA⟩

/-- The claim-side normal form `trim(lower(L))` of property P6. -/
def trimLower (s : String) : String :=
  ⟨stripWs (s.data.map toLowerA)⟩

/-- Python `dict.get` over the pairs of a JSON object built by a dict
comprehension: the last binding of a key wins. -/
def dictGet (M : List (String × String)) (k : String) : Option String :=
  M.foldl (fun acc p => if p.1 = k then some p.2 else acc) none

/-- The `load_label_map` key normalization over the raw JSON object. -/
def load_label_map (raw : List (String × String)) : List (String × String) :=
  raw.map (fun p => (normLabel p.1, p.2))

/-- The `map_label_to_nllb` lookup: falsy labels are unresolved, others
are looked up under `str(label).strip().lower()`. -/
def map_label_to_nllb (label : Value) (mapping : List (String × String)) :
    Option String :=
  if vFalsy label then none else dictGet mapping (normLabel (pyStrV label))

instance {ε α : Type} [DecidableEq ε] [DecidableEq α] :
    DecidableEq (Except ε α) := fun a b =>
  match a, b with
  | .ok x, .ok y =>
    if h : x = y then .isTrue (by rw [h]) else .isFalse (by simp [h])
  | .error x, .error y =>
    if h : x = y then .isTrue (by rw [h]) else .isFalse (by simp [h])
  | .ok _, .error _ => .isFalse (by simp)
  | .error _, .ok _ => .isFalse (by simp)

/-- Outcome of the per-record pipeline in `process_shard`. -/
inductive NormResult
  | keptR (r : Record)
  | droppedEmpty
  | droppedUnknown
deriving DecidableEq

/-- The expression `r.get("text") or ""` as fed to `normalize_text`:
falsy values collapse to the empty string; a truthy non-string would
raise `AttributeError` inside `normalize_text` (modelled as `none`). -/
def textArg : Value → Option String
  | .vNull => some ""
  | .vStr s => some s
  | .vInt n => if n = 0 then some "" else none

/-- One iteration of the `process_shard` record loop: clean, map label,
segment, assemble (update `lang`, `text`, `sents`, drop `lang_hint`
unless kept).  `.error` models a fatal exception aborting the shard. -/
def normStep (M : List (String × String)) (keep_hint : Bool) (r : Record) :
    Except Unit NormResult :=
  match textArg (r.get "text") with
  | none => .error ()
  | some t0 =>
    let txt := normalize_text t0
    if txt = "" then .ok .droppedEmpty
    else
      match map_label_to_nllb (r.get "lang_hint") M with
      | none => .ok .droppedUnknown
      | some lang =>
        let sents := text_to_sentences txt
        let r1 := ((r.set "lang" (.vStr lang)).set "text" (.vStr txt)).set
          "sents" (.vStr sents)
        .ok (.keptR (if keep_hint then r1 else r1.erase "lang_hint"))

/-- The `process_shard` loop of `normalize_and_clean.py` over a parsed
shard: written records in order plus the `kept`, `skipped_empty`,
`skipped_unknown_label` counters. -/
def process_shard (M : List (String × String)) (keep_hint : Bool) :
    List Record → Except Unit (List Record × Nat × Nat × Nat)
  | [] => .ok ([], 0, 0, 0)
  | r :: rest =>
    match normStep M keep_hint r with
    | .error e => .error e
    | .ok res =>
      match process_shard M keep_hint rest with
      | .error e => .error e
      | .ok (out, k, se, su) =>
        match res with
        | .keptR r1 => .ok (r1 :: out, k + 1, se, su)
        | .droppedEmpty => .ok (out, k, se + 1, su)
        | .droppedUnknown => .ok (out, k, se, su + 1)

/-! Character-level facts. -/

theorem toNat_ofNat_lt (n : Nat) (h : n < 55296) : (Char.ofNat n).toNat = n := by
  have hv : n.isValidChar := Or.inl h
  unfold Char.ofNat
  simp [hv, Char.ofNatAux, Char.toNat, UInt32.toNat, BitVec.toNat_ofNatLt]

theorem charEq_of_toNat {c d : Char} (h : c.toNat = d.toNat) : c = d := by
  apply Char.ext
  apply UInt32.ext
  exact h

theorem isWs_eq_false_of_letter (c : Char)
    (h : 65 ≤ c.toNat ∧ c.toNat ≤ 90 ∨ 97 ≤ c.toNat ∧ c.toNat ≤ 122) :
    isWs c = false := by
  unfold isWs
  simp only [Bool.or_eq_false_iff, decide_eq_false_iff_not]
  omega

theorem isWs_toLowerA (c : Char) : isWs (toLowerA c) = isWs c := by
  unfold toLowerA
  split
  case isTrue h =>
    have h32 : (Char.ofNat (c.toNat + 32)).toNat = c.toNat + 32 :=
      toNat_ofNat_lt _ (by omega)
    rw [isWs_eq_false_of_letter _ (Or.inl h),
        isWs_eq_false_of_letter _ (Or.inr (by omega))]
  case isFalse h => rfl

/-! Sharder (claim C2). -/

theorem chunkAux_spec {α : Type} (K : Nat) (hK : 0 < K) :
    ∀ (fuel : Nat) (rows : List α), rows.length ≤ fuel →
      (chunkAux K fuel rows).flatten = rows ∧
      (chunkAux K fuel rows).length = (rows.length + K - 1) / K := by
  intro fuel
  induction fuel with
  | zero =>
    intro rows h
    cases rows with
    | nil => simp [chunkAux, Nat.div_eq_of_lt (by omega : K - 1 < K)]
    | cons r rest => simp at h
  | succ n ih =>
    intro rows h
    cases rows with
    | nil => simp [chunkAux, Nat.div_eq_of_lt (by omega : K - 1 < K)]
    | cons r rest =>
      have hlen : ((r :: rest).drop K).length ≤ n := by
        simp only [List.length_drop, List.length_cons]
        have := h
        simp only [List.length_cons] at this
        omega
      obtain ⟨ih1, ih2⟩ := ih ((r :: rest).drop K) hlen
      constructor
      · simp only [chunkAux, List.flatten_cons, ih1, List.take_append_drop]
      · simp only [chunkAux, List.length_cons, ih2, List.length_drop,
          List.length_cons]
        have hstep : rest.length + 1 - K + K - 1 =
            (if K ≤ rest.length + 1 then rest.length else K - 1) := by
          split <;> omega
        rw [hstep]
        have hstep2 : rest.length + 1 + K - 1 = rest.length + K := by omega
        rw [hstep2, Nat.add_div_right _ hK]
        split
        case isTrue hKL => rfl
        case isFalse hKL =>
          rw [Nat.div_eq_of_lt (by omega : K - 1 < K),
              Nat.div_eq_of_lt (by omega : rest.length < K)]

/-- C2: for every source row list and every positive chunk size `K`,
concatenating the Sharder's shards in shard-index order reproduces the
rows in original order exactly, and the number of shards equals
`ceil(total_rows / K)` (written `(total_rows + K - 1) / K`). -/
theorem sharder_complete {α : Type} (K : Nat) (hK : 0 < K) (rows : List α) :
    (chunkRows K rows).flatten = rows ∧
    (chunkRows K rows).length = (rows.length + K - 1) / K :=
  chunkAux_spec K hK rows.length rows le_rfl

/-- Witness for C2 at `K = 2` and a three-row source: two full shards
plus one short shard, `ceil(3 / 2) = 2`. -/
theorem sharder_complete_witness :
    0 < 2 ∧ ((chunkRows 2 [10, 20, 30]).flatten = [10, 20, 30] ∧
      (chunkRows 2 [10, 20, 30]).length = (([10, 20, 30] : List Nat).length + 2 - 1) / 2) :=
  ⟨by decide, sharder_complete 2 (by decide) [10, 20, 30]⟩

/-! Normalizer drop accounting (claim C4). -/

/-- C4: whenever `process_shard` completes a shard, the three counters
`kept`, `skipped_empty` and `skipped_unknown_label` sum to the number of
input records — each record took exactly one branch of the per-record
decision tree. -/
theorem drop_accounting (M : List (String × String)) (keep_hint : Bool) :
    ∀ (rs out : List Record) (k se su : Nat),
      process_shard M keep_hint rs = .ok (out, k, se, su) →
      k + se + su = rs.length := by
  intro rs
  induction rs with
  | nil =>
    intro out k se su h
    simp only [process_shard, Except.ok.injEq, Prod.mk.injEq] at h
    simp only [List.length_nil]
    omega
  | cons r rest ih =>
    intro out k se su h
    simp only [process_shard] at h
    cases hs : normStep M keep_hint r with
    | error e => rw [hs] at h; exact absurd h (by simp)
    | ok res =>
      rw [hs] at h
      cases hp : process_shard M keep_hint rest with
      | error e => rw [hp] at h; exact absurd h (by simp)
      | ok q =>
        obtain ⟨out1, k1, se1, su1⟩ := q
        rw [hp] at h
        have hsum := ih out1 k1 se1 su1 hp
        cases res with
        | keptR r1 =>
          simp only [Except.ok.injEq, Prod.mk.injEq] at h
          simp only [List.length_cons]
          omega
        | droppedEmpty =>
          simp only [Except.ok.injEq, Prod.mk.injEq] at h
          simp only [List.length_cons]
          omega
        | droppedUnknown =>
          simp only [Except.ok.injEq, Prod.mk.injEq] at h
          simp only [List.length_cons]
          omega

/-- Witness for C4 on a one-record shard whose text cleans to empty:
counters `0 + 1 + 0` match the single input record. -/
theorem drop_accounting_witness :
    0 + 1 + 0 = ([[("text", Value.vNull)]] : List Record).length :=
  drop_accounting [] false [[("text", Value.vNull)]] [] 0 1 0 (by decide)

/-! Normalizer Scenario C (claim C9). -/

/-- C9: the Scenario C record — URL masked, double space collapsed,
label `" Luganda "` resolved to `lug_Latn`, single sentence, and the
`lang_hint` field absent from the output record. -/
theorem scenario_c :
    normStep (load_label_map [("luganda", "lug_Latn")]) false
      [("text", Value.vStr "Check https://x.co/a now  please"),
       ("lang_hint", Value.vStr " Luganda ")] =
    .ok (.keptR [("text", Value.vStr "Check <URL> now please"),
                 ("lang", Value.vStr "lug_Latn"),
                 ("sents", Value.vStr "Check <URL> now please")]) := by decide

/-! Reshaper drop behaviour (claim C1). -/

/-- C1 (amended): `build_post` emits no post for a side exactly when the
side's content or id value fails the check `not x or str(x).strip() ==
""`, i.e. is Python-falsy (null/missing, empty string, the number 0) or
whitespace-only after string conversion; otherwise it emits exactly one
post for that side. -/
theorem build_post_skip_iff (m : ColMap) (side : Side) (rec : Record) :
    build_post m side rec = none ↔
      blankV (rec.get (m.side side).content) ∨ blankV (rec.get (m.side side).id) := by
  by_cases h1 : blankV (rec.get (m.side side).content)
  · simp [build_post, h1]
  · by_cases h2 : blankV (rec.get (m.side side).id)
    · simp [build_post, h1, h2]
    · simp [build_post, h1, h2]

/-- Counterexample to C1 as stated: a question side whose content value
is the number `0` — present, non-null and with non-blank string form
`"0"` — still yields no post, because Python's `not 0` is true. -/
theorem build_post_zero_counterexample :
    (Record.get [("q_text", Value.vInt 0), ("q_id", Value.vStr "42")] "q_text" ≠ Value.vNull ∧
     pyStrip (pyStrV (Record.get [("q_text", Value.vInt 0), ("q_id", Value.vStr "42")] "q_text")) ≠ "" ∧
     Record.get [("q_text", Value.vInt 0), ("q_id", Value.vStr "42")] "q_id" ≠ Value.vNull ∧
     pyStrip (pyStrV (Record.get [("q_text", Value.vInt 0), ("q_id", Value.vStr "42")] "q_id")) ≠ "") ∧
    build_post
      ⟨⟨"q_text", "q_id", "q_c", "q_u", "q_l"⟩,
       ⟨"r_text", "r_id", "r_c", "r_u", "r_l"⟩, "thread"⟩
      Side.question
      [("q_text", Value.vInt 0), ("q_id", Value.vStr "42")] = none := by decide

/-! Normalizer frame property (claim C10). -/

theorem find_map_keyfix (r : Record) (key k : String) (v : Value) (h : k ≠ key) :
    Record.find (r.map (fun kv => if kv.1 = key then (key, v) else kv)) k =
      Record.find r k := by
  induction r with
  | nil => rfl
  | cons kv rest ih =>
    obtain ⟨a, b⟩ := kv
    simp only [List.map_cons]
    by_cases hk : a = key
    · subst hk
      have hr : ((a, b).1 = a) := rfl
      rw [if_pos hr]
      simp only [Record.find]
      rw [if_neg (fun he : a = k => h he.symm),
          if_neg (fun he : a = k => h he.symm), ih]
    · have hne : ¬((a, b).1 = key) := hk
      rw [if_neg hne]
      simp only [Record.find]
      by_cases hak : a = k
      · rw [if_pos hak, if_pos hak]
      · rw [if_neg hak, if_neg hak, ih]

theorem find_append_single_ne (r : Record) (key k : String) (v : Value)
    (h : k ≠ key) :
    Record.find (r ++ [(key, v)]) k = Record.find r k := by
  induction r with
  | nil =>
    simp only [List.nil_append, Record.find]
    rw [if_neg (fun he : key = k => h he.symm)]
  | cons kv rest ih =>
    obtain ⟨a, b⟩ := kv
    by_cases hak : a = k
    · simp [Record.find, hak]
    · simp [Record.find, hak, ih]

theorem find_set_ne (r : Record) (key k : String) (v : Value) (h : k ≠ key) :
    Record.find (r.set key v) k = Record.find r k := by
  unfold Record.set
  split
  · exact find_map_keyfix r key k v h
  · exact find_append_single_ne r key k v h

theorem find_erase_ne (r : Record) (key k : String) (h : k ≠ key) :
    Record.find (r.erase key) k = Record.find r k := by
  unfold Record.erase
  induction r with
  | nil => rfl
  | cons kv rest ih =>
    obtain ⟨a, b⟩ := kv
    by_cases hk : a = key
    · have hcond : (((a, b).1 != key) = false) := by simp [hk]
      simp only [List.filter_cons, hcond, Bool.false_eq_true, if_false]
      rw [ih]
      simp only [Record.find]
      rw [if_neg (fun he : a = k => h (hk ▸ he).symm)]
    · have hcond : (((a, b).1 != key) = true) := by simp [hk]
      simp only [List.filter_cons, hcond, if_true]
      simp only [Record.find]
      by_cases hak : a = k
      · rw [if_pos hak, if_pos hak]
      · rw [if_neg hak, if_neg hak, ih]

/-- C10: every field other than `text`, `lang`, `sents` and `lang_hint`
appears in a kept output record with its input value unchanged — the
per-record pipeline only assigns those three keys and pops `lang_hint`. -/
theorem untouched_fields (M : List (String × String)) (keep_hint : Bool)
    (r r1 : Record) (h : normStep M keep_hint r = .ok (.keptR r1))
    (k : String) (h1 : k ≠ "text") (h2 : k ≠ "lang") (h3 : k ≠ "sents")
    (h4 : k ≠ "lang_hint") :
    Record.find r1 k = Record.find r k := by
  unfold normStep at h
  cases ht : textArg (r.get "text") with
  | none => rw [ht] at h; exact absurd h (by simp)
  | some t0 =>
    rw [ht] at h
    simp only at h
    split at h
    · exact absurd h (by simp)
    · cases hl : map_label_to_nllb (r.get "lang_hint") M with
      | none => rw [hl] at h; exact absurd h (by simp)
      | some lang =>
        rw [hl] at h
        simp only [Except.ok.injEq, NormResult.keptR.injEq] at h
        subst h
        split
        · rw [find_set_ne _ _ _ _ h3, find_set_ne _ _ _ _ h1,
              find_set_ne _ _ _ _ h2]
        · rw [find_erase_ne _ _ _ h4, find_set_ne _ _ _ _ h3,
              find_set_ne _ _ _ _ h1, find_set_ne _ _ _ _ h2]

/-- Witness for C10: an `author` field of a kept record is carried over
unchanged. -/
theorem untouched_fields_witness :
    Record.find
      ([("author", Value.vStr "al"), ("text", Value.vStr "Hi."),
        ("lang", Value.vStr "lug_Latn"), ("sents", Value.vStr "Hi.")] : Record)
      "author" =
    Record.find
      ([("author", Value.vStr "al"), ("text", Value.vStr "Hi."),
        ("lang_hint", Value.vStr "luganda")] : Record)
      "author" :=
  untouched_fields (load_label_map [("luganda", "lug_Latn")]) false
    [("author", Value.vStr "al"), ("text", Value.vStr "Hi."),
     ("lang_hint", Value.vStr "luganda")]
    [("author", Value.vStr "al"), ("text", Value.vStr "Hi."),
     ("lang", Value.vStr "lug_Latn"), ("sents", Value.vStr "Hi.")]
    (by decide) "author" (by decide) (by decide) (by decide) (by decide)

/-! Label resolution (claim C6). -/

theorem stripWs_map_toLowerA (l : List Char) :
    stripWs (l.map toLowerA) = (stripWs l).map toLowerA := by
  have hfun : (isWs ∘ toLowerA) = isWs := funext (fun c => isWs_toLowerA c)
  unfold stripWs
  rw [List.dropWhile_map, hfun, ← List.map_reverse, List.dropWhile_map, hfun,
      ← List.map_reverse]

theorem trimLower_eq_normLabel (s : String) : trimLower s = normLabel s := by
  unfold trimLower normLabel
  rw [stripWs_map_toLowerA]

/-- C6 (amended): label resolution depends only on `trim(lower(L))`
whenever that normal form is non-empty.  (For normal form `""` the falsy
guard distinguishes `""` from whitespace-only labels, see the
counterexample.) -/
theorem label_resolution_det (M : List (String × String)) (L1 L2 : String)
    (hnf : trimLower L1 = trimLower L2) (hne : trimLower L1 ≠ "") :
    map_label_to_nllb (.vStr L1) M = map_label_to_nllb (.vStr L2) M := by
  have hL1 : L1 ≠ "" := by
    intro h0
    exact hne (by rw [h0]; rfl)
  have hL2 : L2 ≠ "" := by
    intro h0
    apply hne
    rw [hnf, h0]
    rfl
  unfold map_label_to_nllb
  rw [if_neg (by simpa [vFalsy] using hL1), if_neg (by simpa [vFalsy] using hL2)]
  simp only [pyStrV]
  rw [← trimLower_eq_normLabel, ← trimLower_eq_normLabel, hnf]

/-- Counterexample to C6 as stated: over the label map loaded from
`{" ": "und"}` (whose normalized key is the empty string), the labels
`""` and `" "` have the same `trim(lower(L))` but resolve differently —
`""` is falsy and short-circuits to `None`, while `" "` is truthy and
finds the empty key. -/
theorem label_resolution_counterexample :
    trimLower "" = trimLower " " ∧
    map_label_to_nllb (.vStr "") (load_label_map [(" ", "und")]) ≠
      map_label_to_nllb (.vStr " ") (load_label_map [(" ", "und")]) := by decide

/-- Witness for C6: two case- and whitespace-variants of `luganda`
resolve to the same code. -/
theorem label_resolution_det_witness :
    map_label_to_nllb (.vStr "Luganda ") (load_label_map [("luganda", "lug_Latn")]) =
      map_label_to_nllb (.vStr " luganda") (load_label_map [("luganda", "lug_Latn")]) :=
  label_resolution_det (load_label_map [("luganda", "lug_Latn")])
    "Luganda " " luganda" (by decide) (by decide)

/-! Reshaper identifiers (claim C5). -/

theorem data_append (s t : String) : (s ++ t).data = s.data ++ t.data := by
  cases s
  cases t
  rfl

theorem build_post_some (m : ColMap) (side : Side) (rec : Record) (p : Post)
    (h : build_post m side rec = some p) :
    p.role = side ∧
      p.id = roleTag side ++ pyStrV (rec.get (m.side side).id) := by
  simp only [build_post] at h
  by_cases h1 : blankV (rec.get (m.side side).content)
  · rw [if_pos h1] at h
    exact absurd h (by simp)
  · by_cases h2 : blankV (rec.get (m.side side).id)
    · rw [if_neg h1, if_pos h2] at h
      exact absurd h (by simp)
    · rw [if_neg h1, if_neg h2] at h
      have hp := Option.some.inj h
      subst hp
      cases side <;> exact ⟨rfl, rfl⟩

theorem mem_reshape_run (m : ColMap) (recs : List Record) (p : Post)
    (h : p ∈ reshape_run m recs) :
    ∃ rec side, build_post m side rec = some p := by
  induction recs with
  | nil => exact absurd h (by simp [reshape_run])
  | cons rec rest ih =>
    simp only [reshape_run, List.mem_append] at h
    cases h with
    | inl h =>
      obtain ⟨side, _, hbuild⟩ := List.mem_filterMap.mp h
      exact ⟨rec, side, hbuild⟩
    | inr h => exact ih h

theorem rawId_of_build (m : ColMap) (side : Side) (rec : Record) (p : Post)
    (h : build_post m side rec = some p) :
    p.id = roleTag p.role ++ rawId p := by
  obtain ⟨hrole, hid⟩ := build_post_some m side rec p h
  have hraw : rawId p = pyStrV (rec.get (m.side side).id) := by
    unfold rawId
    rw [hid, data_append]
    cases side <;> rfl
  rw [hrole, hraw, hid]

/-- C5 (amended): every emitted post id starts with exactly `"q:"` for a
question and `"r:"` for a response (its remainder being the raw side
identifier), and ids are unique within a run provided the (role, raw
identifier) pairs of the emitted posts are pairwise distinct; the code
itself does not deduplicate raw identifiers. -/
theorem reshape_id_unique (m : ColMap) (recs : List Record) :
    (∀ p ∈ reshape_run m recs, p.id = roleTag p.role ++ rawId p) ∧
    (((reshape_run m recs).map (fun p => (p.role, rawId p))).Nodup →
      ((reshape_run m recs).map Post.id).Nodup) := by
  have hall : ∀ p ∈ reshape_run m recs, p.id = roleTag p.role ++ rawId p := by
    intro p hp
    obtain ⟨rec, side, hb⟩ := mem_reshape_run m recs p hp
    exact rawId_of_build m side rec p hb
  refine ⟨hall, ?_⟩
  intro h
  have h1 : List.Pairwise
      (fun p q : Post => (p.role, rawId p) ≠ (q.role, rawId q))
      (reshape_run m recs) := List.pairwise_map.mp h
  apply List.pairwise_map.mpr
  apply List.Pairwise.imp_of_mem ?_ h1
  intro p q hp hq hne heq
  apply hne
  have hp1 := hall p hp
  have hq1 := hall q hq
  rw [hp1, hq1] at heq
  have hdata := congrArg String.data heq
  rw [data_append, data_append] at hdata
  cases hr1 : p.role <;> cases hr2 : q.role <;> rw [hr1] at hdata <;>
    rw [hr2] at hdata <;> simp only [roleTag] at hdata
  · have hrr : (rawId p).data = (rawId q).data := by
      simpa using hdata
    rw [String.ext hrr]
  · simp at hdata
  · simp at hdata
  · have hrr : (rawId p).data = (rawId q).data := by
      simpa using hdata
    rw [String.ext hrr]

/-- Counterexample to C5 as stated: running the Reshaper over a shard
holding the same wide record twice emits the id `"q:42"` twice — ids
are not unique within the run. -/
theorem reshape_id_dup_counterexample :
    ¬ ((reshape_run
        ⟨⟨"q_text", "q_id", "q_c", "q_u", "q_l"⟩,
         ⟨"r_text", "r_id", "r_c", "r_u", "r_l"⟩, "thread"⟩
        [[("q_text", Value.vStr "Hello?"), ("q_id", Value.vStr "42")],
         [("q_text", Value.vStr "Hello?"), ("q_id", Value.vStr "42")]]).map
          Post.id).Nodup := by decide

/-- Witness for C5 on a run with distinct raw identifiers: all emitted
ids are distinct. -/
theorem reshape_id_unique_witness :
    ((reshape_run
        ⟨⟨"q_text", "q_id", "q_c", "q_u", "q_l"⟩,
         ⟨"r_text", "r_id", "r_c", "r_u", "r_l"⟩, "thread"⟩
        [[("q_text", Value.vStr "Hello?"), ("q_id", Value.vStr "42")],
         [("q_text", Value.vStr "Hi."), ("q_id", Value.vStr "43")]]).map
          Post.id).Nodup :=
  (reshape_id_unique
    ⟨⟨"q_text", "q_id", "q_c", "q_u", "q_l"⟩,
     ⟨"r_text", "r_id", "r_c", "r_u", "r_l"⟩, "thread"⟩
    [[("q_text", Value.vStr "Hello?"), ("q_id", Value.vStr "42")],
     [("q_text", Value.vStr "Hi."), ("q_id", Value.vStr "43")]]).2 (by decide)

/-! Shape predicates for cleaned text. -/

/-- First character, if any, is not whitespace. -/
def headNonWs : List Char → Prop
  | [] => True
  | c :: _ => isWs c = false

/-- Last character, if any, is not whitespace. -/
def lastNonWs : List Char → Prop
  | [] => True
  | [c] => isWs c = false
  | _ :: c :: rest => lastNonWs (c :: rest)

/-- No two adjacent whitespace characters. -/
def noAdjWs : List Char → Prop
  | [] => True
  | [_] => True
  | a :: b :: rest => (isWs a = true → isWs b = false) ∧ noAdjWs (b :: rest)

/-- Every whitespace character is an ordinary space. -/
def wsOnlySpace (cs : List Char) : Prop :=
  ∀ c ∈ cs, isWs c = true → c = ' '

/-- No position of the list matches the URL regex. -/
def noMatch (l : List Char) : Prop :=
  ∀ n, ¬ matchStart (l.drop n)

theorem lastNonWs_cons_of_ne {a : Char} {l : List Char} (h : l ≠ []) :
    lastNonWs (a :: l) = lastNonWs l := by
  cases l with
  | nil => exact absurd rfl h
  | cons b r => rfl

theorem noAdjWs_tail {a : Char} {l : List Char} (h : noAdjWs (a :: l)) :
    noAdjWs l := by
  cases l with
  | nil => trivial
  | cons b r => exact h.2

theorem noAdjWs_cons {a : Char} {l : List Char} (h1 : noAdjWs l)
    (h2 : isWs a = true → headNonWs l) : noAdjWs (a :: l) := by
  cases l with
  | nil => trivial
  | cons b r => exact ⟨fun hw => h2 hw, h1⟩

theorem noAdjWs_head_pair {a b : Char} {l : List Char}
    (h : noAdjWs (a :: b :: l)) : isWs a = true → isWs b = false :=
  h.1

theorem headNonWs_append_left {l l' : List Char} (h : l ≠ []) :
    headNonWs (l ++ l') = headNonWs l := by
  cases l with
  | nil => exact absurd rfl h
  | cons c r => rfl

theorem lastNonWs_iff_rev : ∀ l : List Char, lastNonWs l ↔ headNonWs l.reverse := by
  intro l
  induction l with
  | nil => exact Iff.rfl
  | cons a r ih =>
    cases r with
    | nil => exact Iff.rfl
    | cons b r2 =>
      rw [lastNonWs_cons_of_ne (by simp)]
      rw [ih]
      have hrev : (a :: b :: r2).reverse = (b :: r2).reverse ++ [a] := by
        simp
      rw [hrev, headNonWs_append_left (by simp)]

theorem lastNonWs_append_of_ne {A X : List Char} (h : X ≠ []) :
    lastNonWs (A ++ X) ↔ lastNonWs X := by
  induction A with
  | nil => exact Iff.rfl
  | cons a A2 ih =>
    have hne : A2 ++ X ≠ [] := by
      simp [h]
    rw [List.cons_append, lastNonWs_cons_of_ne hne]
    exact ih

theorem lastNonWs_dropWhile (p : Char → Bool) :
    ∀ l : List Char, lastNonWs l → lastNonWs (l.dropWhile p) := by
  intro l
  induction l with
  | nil => exact fun h => h
  | cons a r ih =>
    intro h
    rw [List.dropWhile_cons]
    split
    · apply ih
      cases r with
      | nil => trivial
      | cons b r2 => rwa [lastNonWs_cons_of_ne (by simp)] at h
    · exact h

theorem headNonWs_dropWhile : ∀ l : List Char, headNonWs (l.dropWhile isWs) := by
  intro l
  induction l with
  | nil => trivial
  | cons a r ih =>
    rw [List.dropWhile_cons]
    split
    case isTrue h => exact ih
    case isFalse h => simpa [headNonWs] using h

theorem dropWhile_of_headNonWs {l : List Char} (h : headNonWs l) :
    l.dropWhile isWs = l := by
  cases l with
  | nil => rfl
  | cons c r =>
    rw [List.dropWhile_cons]
    simp only [headNonWs] at h
    simp [h]

theorem mem_dropWhile {c : Char} (p : Char → Bool) :
    ∀ l : List Char, c ∈ l.dropWhile p → c ∈ l := by
  intro l
  induction l with
  | nil => exact fun h => h
  | cons a r ih =>
    intro h
    rw [List.dropWhile_cons] at h
    split at h
    · exact List.mem_cons_of_mem a (ih h)
    · exact h

theorem headNonWs_stripWs (l : List Char) : headNonWs (stripWs l) := by
  unfold stripWs
  rw [← lastNonWs_iff_rev]
  apply lastNonWs_dropWhile
  rw [lastNonWs_iff_rev, List.reverse_reverse]
  exact headNonWs_dropWhile l

theorem lastNonWs_stripWs (l : List Char) : lastNonWs (stripWs l) := by
  unfold stripWs
  rw [lastNonWs_iff_rev, List.reverse_reverse]
  exact headNonWs_dropWhile _

theorem mem_stripWs {c : Char} {l : List Char} (h : c ∈ stripWs l) : c ∈ l := by
  unfold stripWs at h
  rw [List.mem_reverse] at h
  have h2 := mem_dropWhile _ _ h
  rw [List.mem_reverse] at h2
  exact mem_dropWhile _ _ h2

theorem stripWs_of_shape {l : List Char} (h1 : headNonWs l) (h2 : lastNonWs l) :
    stripWs l = l := by
  unfold stripWs
  rw [dropWhile_of_headNonWs h1, dropWhile_of_headNonWs (by
    rw [← lastNonWs_iff_rev]
    exact h2), List.reverse_reverse]

theorem mapSelf {α : Type} (f : α → α) :
    ∀ l : List α, (∀ a ∈ l, f a = a) → l.map f = l := by
  intro l
  induction l with
  | nil => exact fun _ => rfl
  | cons a r ih =>
    intro h
    rw [List.map_cons, h a (by simp), ih (fun x hx => h x (by simp [hx]))]

/-! Whitespace collapsing lemmas. -/

theorem cg_wsOnlySpace : ∀ (l : List Char) (b : Bool), wsOnlySpace (collapseGo b l) := by
  intro l
  induction l with
  | nil => intro b c hc; exact absurd hc (by simp [collapseGo])
  | cons a r ih =>
    intro b c hc hw
    simp only [collapseGo] at hc
    split at hc
    · split at hc
      · exact ih true c hc hw
      · rcases List.mem_cons.mp hc with h1 | h1
        · exact h1
        · exact ih true c h1 hw
    · rcases List.mem_cons.mp hc with h1 | h1
      · subst h1
        simp_all
      · exact ih false c h1 hw

theorem cg_headNonWs_true : ∀ l : List Char, headNonWs (collapseGo true l) := by
  intro l
  induction l with
  | nil => trivial
  | cons a r ih =>
    simp only [collapseGo]
    split
    case isTrue h => exact ih
    case isFalse h => simpa [headNonWs] using h

theorem cg_noAdjWs : ∀ (l : List Char) (b : Bool), noAdjWs (collapseGo b l) := by
  intro l
  induction l with
  | nil => intro b; trivial
  | cons a r ih =>
    intro b
    simp only [collapseGo]
    split
    case isTrue h =>
      split
      · exact ih true
      · exact noAdjWs_cons (ih true) (fun _ => cg_headNonWs_true r)
    case isFalse h =>
      apply noAdjWs_cons (ih false)
      intro hw
      exact absurd hw (by simp [h])

theorem cg_headNonWs_pres {l : List Char} (h : headNonWs l) :
    headNonWs (collapseGo false l) := by
  cases l with
  | nil => trivial
  | cons a r =>
    simp only [headNonWs] at h
    simp only [collapseGo, h, Bool.false_eq_true, if_false]
    simpa [headNonWs] using h

theorem lastNonWs_nonWsMem : ∀ l : List Char, l ≠ [] → lastNonWs l →
    ∃ c ∈ l, isWs c = false := by
  intro l
  induction l with
  | nil => exact fun h _ => absurd rfl h
  | cons a r ih =>
    intro _ hl
    cases r with
    | nil => exact ⟨a, by simp, hl⟩
    | cons b r2 =>
      rw [lastNonWs_cons_of_ne (by simp)] at hl
      obtain ⟨c, hc, hcw⟩ := ih (by simp) hl
      exact ⟨c, by simp [hc], hcw⟩

theorem cg_ne_nil : ∀ (l : List Char) (b : Bool),
    (∃ c ∈ l, isWs c = false) → collapseGo b l ≠ [] := by
  intro l
  induction l with
  | nil => intro b h; obtain ⟨c, hc, _⟩ := h; exact absurd hc (by simp)
  | cons a r ih =>
    intro b ⟨c, hc, hcw⟩
    simp only [collapseGo]
    split
    case isTrue h =>
      have hcr : c ∈ r := by
        rcases List.mem_cons.mp hc with h1 | h1
        · subst h1; simp_all
        · exact h1
      split
      · exact ih true ⟨c, hcr, hcw⟩
      · simp
    case isFalse h => simp

theorem cg_false_ne_nil (a : Char) (r : List Char) :
    collapseGo false (a :: r) ≠ [] := by
  simp only [collapseGo]
  split <;> simp

theorem cg_lastNonWs : ∀ (l : List Char) (b : Bool), lastNonWs l →
    lastNonWs (collapseGo b l) := by
  intro l
  induction l with
  | nil => intro b _; trivial
  | cons a r ih =>
    intro b hl
    simp only [collapseGo]
    cases r with
    | nil =>
      simp only [lastNonWs] at hl
      simp only [collapseGo, hl, Bool.false_eq_true, if_false]
      exact hl
    | cons x r2 =>
      rw [lastNonWs_cons_of_ne (by simp)] at hl
      have hne : collapseGo true (x :: r2) ≠ [] :=
        cg_ne_nil _ true (lastNonWs_nonWsMem _ (by simp) hl)
      split
      case isTrue h =>
        split
        · exact ih true hl
        · rw [lastNonWs_cons_of_ne hne]
          exact ih true hl
      case isFalse h =>
        rw [lastNonWs_cons_of_ne (cg_false_ne_nil x r2)]
        exact ih false hl

theorem cg_id : ∀ (l : List Char) (b : Bool), wsOnlySpace l → noAdjWs l →
    (b = true → headNonWs l) → collapseGo b l = l := by
  intro l
  induction l with
  | nil => intro b _ _ _; rfl
  | cons a r ih =>
    intro b h1 h2 h3
    simp only [collapseGo]
    split
    case isTrue h =>
      cases b with
      | true =>
        have := h3 rfl
        simp only [headNonWs] at this
        simp_all
      | false =>
        have ha : a = ' ' := h1 a (by simp) h
        have hr : collapseGo true r = r := by
          apply ih true (fun c hc hw => h1 c (by simp [hc]) hw)
            (noAdjWs_tail h2)
          intro _
          cases r with
          | nil => trivial
          | cons x r2 =>
            simp only [headNonWs]
            exact noAdjWs_head_pair h2 h
        rw [if_neg (by simp), hr, ha]
    case isFalse h =>
      rw [ih false (fun c hc hw => h1 c (by simp [hc]) hw) (noAdjWs_tail h2)
        (fun hb => absurd hb (by simp))]

theorem mem_collapseGo {c : Char} : ∀ (l : List Char) (b : Bool),
    c ∈ collapseGo b l → c ∈ l ∨ c = ' ' := by
  intro l
  induction l with
  | nil => intro b h; exact absurd h (by simp [collapseGo])
  | cons a r ih =>
    intro b h
    simp only [collapseGo] at h
    split at h
    · split at h
      · rcases ih true h with h1 | h1
        · exact Or.inl (by simp [h1])
        · exact Or.inr h1
      · rcases List.mem_cons.mp h with h1 | h1
        · exact Or.inr h1
        · rcases ih true h1 with h2 | h2
          · exact Or.inl (by simp [h2])
          · exact Or.inr h2
    · rcases List.mem_cons.mp h with h1 | h1
      · exact Or.inl (by simp [h1])
      · rcases ih false h1 with h2 | h2
        · exact Or.inl (by simp [h2])
        · exact Or.inr h2

/-! URL masking lemmas. -/

theorem matchStart_head {c : Char} {S : List Char} (h : matchStart (c :: S)) :
    c = 'h' := by
  cases h with
  | inl h1 =>
    have ht := h1.1
    rw [List.take_succ_cons] at ht
    have : "http://".data = 'h' :: "ttp://".data := rfl
    rw [this] at ht
    exact (List.cons.injEq _ _ _ _).mp ht |>.1
  | inr h1 =>
    have ht := h1.1
    rw [List.take_succ_cons] at ht
    have : "https://".data = 'h' :: "ttps://".data := rfl
    rw [this] at ht
    exact (List.cons.injEq _ _ _ _).mp ht |>.1

theorem not_matchStart_of_head {c : Char} {S : List Char} (h : c ≠ 'h') :
    ¬ matchStart (c :: S) :=
  fun hm => h (matchStart_head hm)

theorem not_matchStart_of_ws {c : Char} {S : List Char} (h : isWs c = true) :
    ¬ matchStart (c :: S) := by
  apply not_matchStart_of_head
  intro he
  subst he
  exact absurd h (by decide)

theorem not_matchStart_nil : ¬ matchStart [] := by decide

theorem ua_mem {c : Char} : ∀ (l : List Char) (b : Bool),
    c ∈ urlAux b l → c ∈ l ∨ c ∈ ['<', 'U', 'R', 'L', '>'] := by
  intro l
  induction l with
  | nil => intro b h; exact absurd h (by simp [urlAux])
  | cons a r ih =>
    intro b h
    cases b with
    | true =>
      simp only [urlAux] at h
      split at h
      · rcases List.mem_cons.mp h with h1 | h1
        · exact Or.inl (by simp [h1])
        · rcases ih false h1 with h2 | h2
          · exact Or.inl (by simp [h2])
          · exact Or.inr h2
      · rcases ih true h with h2 | h2
        · exact Or.inl (by simp [h2])
        · exact Or.inr h2
    | false =>
      simp only [urlAux] at h
      split at h
      · simp only [List.mem_cons] at h
        rcases h with h1 | h1 | h1 | h1 | h1 | h1
        · exact Or.inr (by simp [h1])
        · exact Or.inr (by simp [h1])
        · exact Or.inr (by simp [h1])
        · exact Or.inr (by simp [h1])
        · exact Or.inr (by simp [h1])
        · rcases ih true h1 with h2 | h2
          · exact Or.inl (by simp [h2])
          · exact Or.inr h2
      · rcases List.mem_cons.mp h with h1 | h1
        · exact Or.inl (by simp [h1])
        · rcases ih false h1 with h2 | h2
          · exact Or.inl (by simp [h2])
          · exact Or.inr h2

theorem ua_wsOnlySpace {l : List Char} (b : Bool) (h : wsOnlySpace l) :
    wsOnlySpace (urlAux b l) := by
  intro c hc hw
  rcases ua_mem l b hc with h1 | h1
  · exact h c h1 hw
  · simp only [List.mem_cons] at h1
    rcases h1 with h2 | h2 | h2 | h2 | h2 | h2
    · subst h2; exact absurd hw (by decide)
    · subst h2; exact absurd hw (by decide)
    · subst h2; exact absurd hw (by decide)
    · subst h2; exact absurd hw (by decide)
    · subst h2; exact absurd hw (by decide)
    · exact absurd h2 (by simp)

theorem ua_false_head {l : List Char} (h : headNonWs l) :
    headNonWs (urlAux false l) := by
  cases l with
  | nil => trivial
  | cons a r =>
    simp only [urlAux]
    split
    · exact (by decide : isWs '<' = false)
    · exact h

theorem ua_false_ne_nil (a : Char) (r : List Char) :
    urlAux false (a :: r) ≠ [] := by
  simp only [urlAux]
  split <;> simp

theorem nonWsHead_ua_false : ∀ l : List Char,
    nonWsHead (urlAux false l) = nonWsHead l := by
  intro l
  cases l with
  | nil => rfl
  | cons a r =>
    simp only [urlAux]
    split
    case isTrue h =>
      have ha : a = 'h' := matchStart_head h
      subst ha
      simp [nonWsHead]
      decide
    case isFalse h => rfl

theorem ua_nil (b : Bool) : urlAux b [] = [] := by
  cases b <;> rfl

theorem ua_true_cons (a : Char) (r : List Char) :
    urlAux true (a :: r) =
      if isWs a then a :: urlAux false r else urlAux true r := rfl

theorem ua_false_cons (a : Char) (r : List Char) :
    urlAux false (a :: r) =
      if matchStart (a :: r) then '<' :: 'U' :: 'R' :: 'L' :: '>' :: urlAux true r
      else a :: urlAux false r := rfl

theorem ua_noAdjWs : ∀ (l : List Char) (b : Bool), noAdjWs l →
    noAdjWs (urlAux b l) := by
  intro l
  induction l with
  | nil => intro b _; rw [ua_nil]; trivial
  | cons a r ih =>
    intro b hl
    have hhead : isWs a = true → headNonWs (urlAux false r) := by
      intro hw
      apply ua_false_head
      cases r with
      | nil => trivial
      | cons x r2 =>
        simp only [headNonWs]
        exact noAdjWs_head_pair hl hw
    cases b with
    | true =>
      rw [ua_true_cons]
      split
      case isTrue h =>
        exact noAdjWs_cons (ih false (noAdjWs_tail hl)) hhead
      case isFalse h => exact ih true (noAdjWs_tail hl)
    | false =>
      rw [ua_false_cons]
      split
      case isTrue h =>
        apply noAdjWs_cons
        apply noAdjWs_cons
        apply noAdjWs_cons
        apply noAdjWs_cons
        apply noAdjWs_cons (ih true (noAdjWs_tail hl))
        · intro hw; exact absurd hw (by decide)
        · intro hw; exact absurd hw (by decide)
        · intro hw; exact absurd hw (by decide)
        · intro hw; exact absurd hw (by decide)
        · intro hw; exact absurd hw (by decide)
      case isFalse h =>
        exact noAdjWs_cons (ih false (noAdjWs_tail hl)) hhead

theorem ua_lastNonWs : ∀ (l : List Char) (b : Bool), lastNonWs l →
    lastNonWs (urlAux b l) := by
  intro l
  induction l with
  | nil => intro b _; rw [ua_nil]; trivial
  | cons a r ih =>
    intro b hl
    cases r with
    | nil =>
      simp only [lastNonWs] at hl
      cases b with
      | true =>
        rw [ua_true_cons]
        simp only [hl, Bool.false_eq_true, if_false]
        rw [ua_nil]
        trivial
      | false =>
        rw [ua_false_cons]
        split
        case isTrue h =>
          rw [ua_nil]
          show isWs '>' = false
          decide
        case isFalse h =>
          simpa [lastNonWs] using hl
    | cons x r2 =>
      rw [lastNonWs_cons_of_ne (by simp)] at hl
      cases b with
      | true =>
        rw [ua_true_cons]
        split
        case isTrue h =>
          rw [lastNonWs_cons_of_ne (ua_false_ne_nil x r2)]
          exact ih false hl
        case isFalse h => exact ih true hl
      | false =>
        rw [ua_false_cons]
        split
        case isTrue h =>
          by_cases hnil : urlAux true (x :: r2) = []
          · rw [hnil]
            show isWs '>' = false
            decide
          · have hsplit : ('<' :: 'U' :: 'R' :: 'L' :: '>' :: urlAux true (x :: r2)) =
                ['<', 'U', 'R', 'L', '>'] ++ urlAux true (x :: r2) := rfl
            rw [hsplit, lastNonWs_append_of_ne hnil]
            exact ih true hl
        case isFalse h =>
          rw [lastNonWs_cons_of_ne (ua_false_ne_nil x r2)]
          exact ih false hl

theorem noMatch_nil : noMatch [] := by
  intro n
  rw [List.drop_nil]
  exact not_matchStart_nil

theorem noMatch_tail {c : Char} {l : List Char} (h : noMatch (c :: l)) :
    noMatch l :=
  fun n => h (n + 1)

theorem noMatch_cons_intro {c : Char} {l : List Char}
    (h1 : ¬ matchStart (c :: l)) (h2 : noMatch l) : noMatch (c :: l) := by
  intro n
  cases n with
  | zero => exact h1
  | succ m => exact h2 m

theorem ua_take_eq : ∀ (q l : List Char), (∀ d ∈ q, d ≠ '<') →
    (urlAux false l).take q.length = q →
    l.take q.length = q ∧
      (urlAux false l).drop q.length = urlAux false (l.drop q.length) := by
  intro q
  induction q with
  | nil =>
    intro l _ _
    exact ⟨rfl, by simp⟩
  | cons d q2 ih =>
    intro l hq htake
    cases l with
    | nil =>
      rw [ua_nil] at htake
      simp at htake
    | cons x xs =>
      rw [ua_false_cons] at htake
      split at htake
      case isTrue h =>
        rw [List.length_cons, List.take_succ_cons] at htake
        have hd : d = '<' := ((List.cons.injEq _ _ _ _).mp htake).1.symm
        exact absurd hd (hq d (by simp))
      case isFalse h =>
        rw [List.length_cons, List.take_succ_cons] at htake
        obtain ⟨hdx, htail⟩ := (List.cons.injEq _ _ _ _).mp htake
        obtain ⟨ih1, ih2⟩ := ih xs (fun e he => hq e (by simp [he])) htail
        constructor
        · rw [List.length_cons, List.take_succ_cons, ih1, hdx]
        · rw [List.length_cons, ua_false_cons, if_neg h, List.drop_succ_cons,
            List.drop_succ_cons, ih2]

theorem ua_no_new_match {c : Char} {l : List Char}
    (hm : ¬ matchStart (c :: l)) : ¬ matchStart (c :: urlAux false l) := by
  intro h2
  apply hm
  cases h2 with
  | inl hcase =>
    obtain ⟨htake, hnws⟩ := hcase
    have hlit : "http://".data = 'h' :: ['t', 't', 'p', ':', '/', '/'] := rfl
    rw [hlit, List.take_succ_cons] at htake
    obtain ⟨hc, htail⟩ := (List.cons.injEq _ _ _ _).mp htake
    have hlen : (['t', 't', 'p', ':', '/', '/'] : List Char).length = 6 := rfl
    rw [← hlen] at htail
    obtain ⟨h1, h2⟩ := ua_take_eq _ l (by decide) htail
    rw [List.drop_succ_cons, ← hlen, h2, nonWsHead_ua_false, hlen] at hnws
    left
    constructor
    · rw [hlit, List.take_succ_cons, hc]
      rw [hlen] at h1
      rw [h1]
    · rwa [List.drop_succ_cons]
  | inr hcase =>
    obtain ⟨htake, hnws⟩ := hcase
    have hlit : "https://".data = 'h' :: ['t', 't', 'p', 's', ':', '/', '/'] := rfl
    rw [hlit, List.take_succ_cons] at htake
    obtain ⟨hc, htail⟩ := (List.cons.injEq _ _ _ _).mp htake
    have hlen : (['t', 't', 'p', 's', ':', '/', '/'] : List Char).length = 7 := rfl
    rw [← hlen] at htail
    obtain ⟨h1, h2⟩ := ua_take_eq _ l (by decide) htail
    rw [List.drop_succ_cons, ← hlen, h2, nonWsHead_ua_false, hlen] at hnws
    right
    constructor
    · rw [hlit, List.take_succ_cons, hc]
      rw [hlen] at h1
      rw [h1]
    · rwa [List.drop_succ_cons]

theorem ua_noMatch : ∀ (l : List Char) (b : Bool), noMatch (urlAux b l) := by
  intro l
  induction l with
  | nil => intro b; rw [ua_nil]; exact noMatch_nil
  | cons a r ih =>
    intro b
    cases b with
    | true =>
      rw [ua_true_cons]
      split
      case isTrue h =>
        exact noMatch_cons_intro (not_matchStart_of_ws h) (ih false)
      case isFalse h => exact ih true
    | false =>
      rw [ua_false_cons]
      split
      case isTrue h =>
        apply noMatch_cons_intro (by apply not_matchStart_of_head; decide)
        apply noMatch_cons_intro (by apply not_matchStart_of_head; decide)
        apply noMatch_cons_intro (by apply not_matchStart_of_head; decide)
        apply noMatch_cons_intro (by apply not_matchStart_of_head; decide)
        apply noMatch_cons_intro (by apply not_matchStart_of_head; decide)
        exact ih true
      case isFalse h =>
        exact noMatch_cons_intro (ua_no_new_match h) (ih false)

theorem ua_id_of_noMatch : ∀ l : List Char, noMatch l → urlAux false l = l := by
  intro l
  induction l with
  | nil => intro _; rfl
  | cons a r ih =>
    intro h
    have h0 : ¬ matchStart (a :: r) := by
      have := h 0
      rwa [List.drop_zero] at this
    rw [ua_false_cons, if_neg h0, ih (noMatch_tail h)]

/-! Invisible-character replacement lemmas. -/

theorem chReplace_not_mem_self {a : Char} (h : a ≠ ' ') (l : List Char) :
    a ∉ chReplace a l := by
  intro hmem
  unfold chReplace at hmem
  obtain ⟨c, _, hc⟩ := List.mem_map.mp hmem
  by_cases hca : c = a
  · rw [if_pos hca] at hc
    exact h hc.symm
  · rw [if_neg hca] at hc
    exact hca hc

theorem chReplace_pres_not_mem {a b : Char} (ha : a ≠ ' ') (h : a ∉ l) :
    a ∉ chReplace b l := by
  intro hmem
  unfold chReplace at hmem
  obtain ⟨c, hcl, hc⟩ := List.mem_map.mp hmem
  by_cases hcb : c = b
  · rw [if_pos hcb] at hc
    exact ha hc.symm
  · rw [if_neg hcb] at hc
    exact h (hc ▸ hcl)

theorem chReplace_id {a : Char} {l : List Char} (h : a ∉ l) :
    chReplace a l = l := by
  unfold chReplace
  apply mapSelf
  intro c hc
  rw [if_neg (fun he : c = a => h (he ▸ hc))]

theorem replaceInvis_no_zw (l : List Char) : '\u200B' ∉ replaceInvis l := by
  unfold replaceInvis
  exact chReplace_pres_not_mem (by decide)
    (chReplace_not_mem_self (by decide) l)

theorem replaceInvis_id {l : List Char} (h1 : '\u200B' ∉ l)
    (h2 : '\u00A0' ∉ l) : replaceInvis l = l := by
  unfold replaceInvis
  rw [chReplace_id h1, chReplace_id h2]

theorem replaceInvis_as_map (l : List Char) :
    replaceInvis l =
      l.map (fun c => if c = '\u200B' ∨ c = '\u00A0' then ' ' else c) := by
  unfold replaceInvis chReplace
  rw [List.map_map]
  apply List.map_congr_left
  intro c _
  by_cases h1 : c = '\u200B'
  · subst h1
    decide
  · by_cases h2 : c = '\u00A0'
    · subst h2
      decide
    · simp only [Function.comp]
      rw [if_neg h1, if_neg h2, if_neg (by tauto)]

/-! Shape of the cleaning transform's output. -/

theorem normOut (s : String) :
    wsOnlySpace (normalize_text s).data ∧ noAdjWs (normalize_text s).data ∧
    headNonWs (normalize_text s).data ∧ lastNonWs (normalize_text s).data ∧
    noMatch (normalize_text s).data ∧ '\u200B' ∉ (normalize_text s).data ∧
    '\u00A0' ∉ (normalize_text s).data := by
  unfold normalize_text
  split
  case isTrue h =>
    show wsOnlySpace ([] : List Char) ∧ noAdjWs [] ∧ headNonWs [] ∧
      lastNonWs [] ∧ noMatch [] ∧ '\u200B' ∉ ([] : List Char) ∧
      '\u00A0' ∉ ([] : List Char)
    exact ⟨fun c hc => absurd hc (by simp), trivial, trivial, trivial,
      noMatch_nil, by simp, by simp⟩
  case isFalse h =>
    show wsOnlySpace (urlSub (collapseRuns (stripWs (replaceInvis s.data)))) ∧ _
    unfold urlSub collapseRuns
    have hB1 := headNonWs_stripWs (replaceInvis s.data)
    have hB2 := lastNonWs_stripWs (replaceInvis s.data)
    refine ⟨?_, ?_, ?_, ?_, ?_, ?_, ?_⟩
    · exact ua_wsOnlySpace false (cg_wsOnlySpace _ false)
    · exact ua_noAdjWs _ false (cg_noAdjWs _ false)
    · exact ua_false_head (cg_headNonWs_pres hB1)
    · exact ua_lastNonWs _ false (cg_lastNonWs _ false hB2)
    · exact ua_noMatch _ false
    · intro hmem
      rcases ua_mem _ false hmem with h1 | h1
      · rcases mem_collapseGo _ false h1 with h2 | h2
        · exact replaceInvis_no_zw s.data (mem_stripWs h2)
        · exact absurd h2 (by decide)
      · exact absurd h1 (by decide)
    · intro hmem
      have hsp := ua_wsOnlySpace false (cg_wsOnlySpace
        (stripWs (replaceInvis s.data)) false) _ hmem (by decide)
      exact absurd hsp (by decide)

/-- C7: the cleaning transform is idempotent — its output contains no
invisible characters, no collapsible whitespace and no remaining URL
match, so a second pass leaves it unchanged. -/
theorem normalize_text_idem (s : String) :
    normalize_text (normalize_text s) = normalize_text s := by
  obtain ⟨h1, h2, h3, h4, h5, h6, h7⟩ := normOut s
  by_cases h0 : normalize_text s = ""
  · rw [h0]
    rfl
  · conv_lhs => rw [normalize_text]
    rw [if_neg h0]
    unfold collapseRuns urlSub
    rw [replaceInvis_id h6 h7, stripWs_of_shape h3 h4,
      cg_id _ false h1 h2 (fun hb => absurd hb (by simp)),
      ua_id_of_noMatch _ h5]

/-- C8 (amended): the cleaning step replaces each zero-width-space and
NBSP character with an ordinary space before whitespace collapsing (it
does not delete them), and consequently neither character ever occurs
in cleaned output. -/
theorem invis_replaced_with_space (s : String) :
    replaceInvis s.data =
      s.data.map (fun c => if c = '\u200B' ∨ c = '\u00A0' then ' ' else c) ∧
    '\u200B' ∉ (normalize_text s).data ∧ '\u00A0' ∉ (normalize_text s).data :=
  ⟨replaceInvis_as_map s.data, (normOut s).2.2.2.2.2.1, (normOut s).2.2.2.2.2.2⟩

/-- Counterexample to C8 as stated: cleaning `"a\u200Bb"` yields
`"a b"` — the zero-width space became a space separating the
surrounding characters — not the deletion result `"ab"`. -/
theorem invis_delete_counterexample :
    normalize_text "a\u200Bb" = "a b" ∧ normalize_text "a\u200Bb" ≠ "ab" := by
  decide

/-! Sentence splitter lemmas (claim C3). -/

/-- Look-behind test of the splitter: the current fragment ends in
sentence-terminal punctuation. -/
def punctHead (cur : List Char) : Bool :=
  match cur.head? with
  | some p => isPunct p
  | none => false

theorem punct_not_ws {p : Char} (h : isPunct p = true) : isWs p = false := by
  unfold isPunct at h
  unfold isWs
  simp only [Bool.or_eq_true, decide_eq_true_eq] at h
  simp only [Bool.or_eq_false_iff, decide_eq_false_iff_not]
  omega

theorem sg_nil (skip : Bool) (cur : List Char) :
    splitGo skip cur [] = [cur.reverse] := rfl

theorem sg_cons (skip : Bool) (cur : List Char) (c : Char) (rest : List Char) :
    splitGo skip cur (c :: rest) =
      if skip then
        if isWs c then splitGo true cur rest else splitGo false [c] rest
      else if isWs c && punctHead cur then
        cur.reverse :: splitGo true [] rest
      else splitGo false (c :: cur) rest := rfl

theorem splitGo_ne_nil : ∀ (cs : List Char) (skip : Bool) (cur : List Char),
    splitGo skip cur cs ≠ [] := by
  intro cs
  induction cs with
  | nil => intro skip cur; rw [sg_nil]; simp
  | cons c rest ih =>
    intro skip cur
    rw [sg_cons]
    split
    · split
      · exact ih true cur
      · exact ih false [c]
    · split
      · simp
      · exact ih false (c :: cur)

theorem joinSp_cons_of_ne {f : List Char} {fs : List (List Char)} (h : fs ≠ []) :
    joinSp (f :: fs) = f ++ ' ' :: joinSp fs := by
  cases fs with
  | nil => exact absurd rfl h
  | cons g gs => rfl

theorem noAdjWs_append_right : ∀ {A X : List Char}, noAdjWs (A ++ X) →
    noAdjWs X := by
  intro A
  induction A with
  | nil => exact fun h => h
  | cons a A2 ih =>
    intro X h
    exact ih (noAdjWs_tail h)

theorem lastNonWs_append_elem {A : List Char} {c : Char}
    (h : lastNonWs (A ++ [c])) : isWs c = false :=
  (lastNonWs_append_of_ne (by simp)).mp h

theorem splitGo_spec : ∀ (cs : List Char) (skip : Bool) (cur : List Char),
    wsOnlySpace (cur.reverse ++ cs) →
    noAdjWs (cur.reverse ++ cs) →
    lastNonWs (cur.reverse ++ cs) →
    (skip = true → cur = [] ∧ cs ≠ [] ∧ headNonWs cs) →
    (skip = false → (cur = [] → cs ≠ [] ∧ headNonWs cs) ∧ headNonWs cur.reverse) →
    joinSp (splitGo skip cur cs) = cur.reverse ++ cs ∧
    ∀ f ∈ splitGo skip cur cs, f ≠ [] ∧ headNonWs f ∧ lastNonWs f := by
  intro cs
  induction cs with
  | nil =>
    intro skip cur hA hB hD hEt hEf
    cases skip with
    | true => exact absurd (hEt rfl).2.1 (by simp)
    | false =>
      obtain ⟨hE1, hE2⟩ := hEf rfl
      have hcur : cur ≠ [] := by
        intro h0
        exact absurd rfl (hE1 h0).1
      rw [sg_nil]
      rw [List.append_nil] at hD
      constructor
      · show cur.reverse = cur.reverse ++ []
        rw [List.append_nil]
      · intro f hf
        rw [List.mem_singleton] at hf
        subst hf
        exact ⟨by simp [hcur], hE2, hD⟩
  | cons c rest ih =>
    intro skip cur hA hB hD hEt hEf
    cases skip with
    | true =>
      obtain ⟨hcur, _, hhead⟩ := hEt rfl
      subst hcur
      simp only [headNonWs] at hhead
      rw [sg_cons, if_pos rfl, if_neg (by simp [hhead])]
      have hres := ih false [c] (by simpa using hA) (by simpa using hB)
        (by simpa using hD)
        (fun h0 => absurd h0 (by simp))
        (fun _ => ⟨fun h0 => absurd h0 (by simp), by simpa [headNonWs] using hhead⟩)
      simpa using hres
    | false =>
      by_cases hcond : (isWs c && punctHead cur) = true
      · obtain ⟨hwc, hpunct⟩ : isWs c = true ∧ punctHead cur = true := by
          simpa using hcond
        rw [sg_cons, if_neg (by simp), if_pos hcond]
        obtain ⟨p, hp⟩ : ∃ p, cur.head? = some p := by
          unfold punctHead at hpunct
          cases hcc : cur.head? with
          | none => rw [hcc] at hpunct; exact absurd hpunct (by simp)
          | some p => exact ⟨p, rfl⟩
        have hpp : isPunct p = true := by
          unfold punctHead at hpunct
          rwa [hp] at hpunct
        have hcur : cur ≠ [] := by
          intro h0
          rw [h0] at hp
          exact absurd hp (by simp)
        have hrest : rest ≠ [] := by
          intro h0
          subst h0
          have : lastNonWs (cur.reverse ++ [c]) := hD
          exact absurd hwc (by simp [lastNonWs_append_elem this])
        have hcr : noAdjWs (c :: rest) := noAdjWs_append_right hB
        have hheadrest : headNonWs rest := by
          cases rest with
          | nil => trivial
          | cons x r2 =>
            simp only [headNonWs]
            exact noAdjWs_head_pair hcr hwc
        have hlastrest : lastNonWs rest := by
          have h1 : lastNonWs (c :: rest) :=
            (lastNonWs_append_of_ne (by simp)).mp hD
          rwa [lastNonWs_cons_of_ne hrest] at h1
        have hres := ih true []
          (by
            intro d hd hw
            apply hA d ?_ hw
            simp only [List.reverse_nil, List.nil_append] at hd
            simp [hd])
          (by simpa using noAdjWs_tail hcr)
          (by simpa using hlastrest)
          (fun _ => ⟨rfl, hrest, hheadrest⟩)
          (fun h0 => absurd h0 (by simp))
        obtain ⟨hjoin, hfrag⟩ := hres
        rw [List.reverse_nil, List.nil_append] at hjoin
        have hc : c = ' ' := hA c (by simp) hwc
        constructor
        · rw [joinSp_cons_of_ne (splitGo_ne_nil rest true []), hjoin, ← hc]
        · intro f hf
          rcases List.mem_cons.mp hf with hfc | hfc
          · subst hfc
            refine ⟨by simp [hcur], (hEf rfl).2, ?_⟩
            rw [lastNonWs_iff_rev, List.reverse_reverse]
            cases cur with
            | nil => exact absurd rfl hcur
            | cons q qs =>
              simp only [List.head?_cons, Option.some.injEq] at hp
              subst hp
              simpa [headNonWs] using punct_not_ws hpp
          · exact hfrag f hfc
      · rw [sg_cons, if_neg (by simp), if_neg hcond]
        have hWeq : (c :: cur).reverse ++ rest = cur.reverse ++ c :: rest := by
          rw [List.reverse_cons, List.append_assoc]
          rfl
        have hres := ih false (c :: cur)
          (by rwa [hWeq]) (by rwa [hWeq]) (by rwa [hWeq])
          (fun h0 => absurd h0 (by simp))
          (fun _ => by
            constructor
            · intro h0
              exact absurd h0 (by simp)
            · rw [List.reverse_cons]
              cases hc2 : cur with
              | nil =>
                simp only [hc2, List.reverse_nil, List.nil_append]
                have := (hEf rfl).1 hc2
                simpa [headNonWs] using this.2
              | cons q qs =>
                rw [headNonWs_append_left (by simp [hc2])]
                have := (hEf rfl).2
                rwa [hc2] at this)
        obtain ⟨hjoin, hfrag⟩ := hres
        rw [hWeq] at hjoin
        exact ⟨hjoin, hfrag⟩

/-- C3: for every cleaned non-empty text (an output of the cleaning
transform), the fallback splitter yields at least one sentence, every
sentence is non-empty after stripping, and rejoining the sentences with
single spaces followed by whitespace normalization reproduces the text
exactly. -/
theorem sents_roundtrip (s : String) (h : normalize_text s ≠ "") :
    sentences (normalize_text s) ≠ [] ∧
    (∀ x ∈ sentences (normalize_text s), pyStrip x ≠ "") ∧
    wsNormalize (joinSpStr (sentences (normalize_text s))) = normalize_text s := by
  obtain ⟨h1, h2, h3, h4, _, _, _⟩ := normOut s
  have hdata : (normalize_text s).data ≠ [] := by
    intro h0
    apply h
    apply String.ext
    rw [h0]
  have hspec := splitGo_spec (normalize_text s).data false []
    (by simpa using h1) (by simpa using h2) (by simpa using h4)
    (fun h0 => absurd h0 (by simp))
    (fun _ => ⟨fun _ => ⟨hdata, h3⟩, trivial⟩)
  obtain ⟨hjoin, hfrag⟩ := hspec
  rw [List.reverse_nil, List.nil_append] at hjoin
  have hmapid : (splitGo false [] (normalize_text s).data).map stripWs
      = splitGo false [] (normalize_text s).data := by
    apply mapSelf
    intro f hf
    obtain ⟨_, hh, hl⟩ := hfrag f hf
    exact stripWs_of_shape hh hl
  have hfilter : sentencesL (normalize_text s).data
      = splitGo false [] (normalize_text s).data := by
    unfold sentencesL
    rw [hmapid]
    apply List.filter_eq_self.mpr
    intro f hf
    simpa using (hfrag f hf).1
  refine ⟨?_, ?_, ?_⟩
  · unfold sentences
    rw [hfilter]
    intro h0
    exact splitGo_ne_nil _ false [] (by simpa using h0)
  · intro x hx
    unfold sentences at hx
    rw [hfilter] at hx
    obtain ⟨f, hf, hfx⟩ := List.mem_map.mp hx
    obtain ⟨hne, hh, hl⟩ := hfrag f hf
    subst hfx
    show pyStrip ⟨f⟩ ≠ ""
    unfold pyStrip
    rw [show (⟨f⟩ : String).data = f from rfl, stripWs_of_shape hh hl]
    intro h0
    exact hne (congrArg String.data h0)
  · unfold joinSpStr sentences
    rw [hfilter, List.map_map]
    have hdm : (String.data ∘ fun f => (⟨f⟩ : String)) = id := rfl
    rw [hdm, List.map_id, hjoin]
    unfold wsNormalize collapseRuns
    rw [show ((⟨(normalize_text s).data⟩ : String)).data
        = (normalize_text s).data from rfl]
    rw [stripWs_of_shape h3 h4,
      cg_id _ false h1 h2 (fun hb => absurd hb (by simp))]

/-- Witness for C3 on a concrete cleaned two-sentence text. -/
theorem sents_roundtrip_witness :
    sentences (normalize_text "Hello there. Bye!") ≠ [] ∧
    (∀ x ∈ sentences (normalize_text "Hello there. Bye!"), pyStrip x ≠ "") ∧
    wsNormalize (joinSpStr (sentences (normalize_text "Hello there. Bye!"))) =
      normalize_text "Hello there. Bye!" :=
  sents_roundtrip "Hello there. Bye!" (by decide)
